import Mathlib

/-!
Shallow embedding of the hledger-parser library (src/lib.rs), a nom-based
parser for hledger plaintext accounting files.  Rust `&str` inputs and
`String` values are modelled as `List Char`; nom's `IResult` is modelled by
`PR`, whose `panic` constructor records that the Rust code would abort
(the `todo!()` stub in `Exchange::parse`).
-/

namespace HledgerParser

/-- Result of a nom parser over the remaining input: success with a value
and the rest of the input, a recoverable parse error (`nom::Err::Error`),
or a Rust panic (raised by the `todo!()` in `Exchange::parse`). -/
inductive PR (α : Type) where
  | ok : α → List Char → PR α
  | fail : PR α
  | panic : PR α
deriving DecidableEq

/-- Sequencing of parsers, the `let (i, x) = p(i)?;` pattern in the Rust
source.  Errors and panics propagate. -/
def PR.bind {α β : Type} : PR α → (α → List Char → PR β) → PR β
  | .ok a i, f => f a i
  | .fail, _ => .fail
  | .panic, _ => .panic

/-- nom's `opt` combinator: a recoverable error yields `none` with the
original input restored; a panic propagates (Rust `opt` does not catch
panics). -/
def popt {α : Type} (r : PR α) (orig : List Char) : PR (Option α) :=
  match r with
  | .ok a i => .ok (some a) i
  | .fail => .ok none orig
  | .panic => .panic

/-- ASCII digit test, Rust's `char::is_ascii_digit` used by nom `digit1`. -/
def isDigitC (c : Char) : Bool := 48 ≤ c.toNat && c.toNat ≤ 57

/-- Space-or-tab test used by nom `space1`. -/
def isSpaceC (c : Char) : Bool := c == ' ' || c == '\t'

/-- ASCII alphabetic test used by nom `alpha1`. -/
def isAlphaC (c : Char) : Bool :=
  (65 ≤ c.toNat && c.toNat ≤ 90) || (97 ≤ c.toNat && c.toNat ≤ 122)

/-- nom `char(c)`: match one specific character. -/
def pchar (c : Char) (i : List Char) : PR Char :=
  match i with
  | [] => .fail
  | x :: xs => if x = c then .ok c xs else .fail

/-- nom `space1`: one or more spaces or tabs. -/
def space1 (i : List Char) : PR (List Char) :=
  if (i.takeWhile isSpaceC).isEmpty then .fail
  else .ok (i.takeWhile isSpaceC) (i.dropWhile isSpaceC)

/-- nom `digit1`: one or more ASCII digits. -/
def digit1 (i : List Char) : PR (List Char) :=
  if (i.takeWhile isDigitC).isEmpty then .fail
  else .ok (i.takeWhile isDigitC) (i.dropWhile isDigitC)

/-- nom `alpha1`: one or more ASCII alphabetic characters. -/
def alpha1 (i : List Char) : PR (List Char) :=
  if (i.takeWhile isAlphaC).isEmpty then .fail
  else .ok (i.takeWhile isAlphaC) (i.dropWhile isAlphaC)

/-- nom `take_till(p)` (complete version): consume until `p` holds, never
failing. -/
def takeTill (p : Char → Bool) (i : List Char) : PR (List Char) :=
  .ok (i.takeWhile fun c => !(p c)) (i.dropWhile fun c => !(p c))

/-- nom `take_till1(p)`: like `take_till` but the consumed run must be
non-empty. -/
def takeTill1 (p : Char → Bool) (i : List Char) : PR (List Char) :=
  if (i.takeWhile fun c => !(p c)).isEmpty then .fail
  else .ok (i.takeWhile fun c => !(p c)) (i.dropWhile fun c => !(p c))

/-- nom `many0_count(char('0'))`: count a possibly empty run of `'0'`. -/
def many0CountZero (i : List Char) : PR Nat :=
  .ok ((i.takeWhile fun c => c == '0').length) (i.dropWhile fun c => c == '0')

/-- Numeric value of a decimal digit character. -/
def digitVal (c : Char) : Nat := c.toNat - 48

/-- Value denoted by a run of decimal digit characters, as computed by
`str::parse` and nom's integer parsers. -/
def valOfDigits (ds : List Char) : Nat :=
  ds.foldl (fun a c => 10 * a + digitVal c) 0

/-- nom `character::complete::i64`: an optional `+`/`-` sign, one or more
digits, with a recoverable error when the value overflows the i64 range. -/
def nomI64 (i : List Char) : PR Int :=
  match i with
  | [] => .fail
  | c :: cs =>
    PR.bind (digit1 (if c == '-' || c == '+' then cs else c :: cs)) fun ds r =>
      if c == '-' then
        if valOfDigits ds ≤ 2 ^ 63 then .ok (-(valOfDigits ds : Int)) r else .fail
      else
        if valOfDigits ds ≤ 2 ^ 63 - 1 then .ok ((valOfDigits ds : Int)) r else .fail

/-- nom `character::complete::u64`: one or more digits, erroring when the
value overflows the u64 range. -/
def nomU64 (i : List Char) : PR Nat :=
  PR.bind (digit1 i) fun ds r =>
    if valOfDigits ds ≤ 2 ^ 64 - 1 then .ok (valOfDigits ds) r else .fail

/-- `Number` from src/lib.rs: `Int(i64)` or
`Float(i64, usize, Option<u64>)` — the signed part left of the decimal
point, the number of zeroes following the point, and the final digits. -/
inductive Number where
  | int : Int → Number
  | float : Int → Nat → Option Nat → Number
deriving DecidableEq

/-- `Number::parse_float_parts` (src/lib.rs 169–175). -/
def Number.parseFloatParts (i : List Char) : PR (Nat × Option Nat) :=
  PR.bind (pchar '.' i) fun _ i =>
  PR.bind (many0CountZero i) fun zeroes i =>
  PR.bind (popt (nomU64 i) i) fun last i =>
  .ok (zeroes, last) i

/-- `Number::parse` (src/lib.rs 161–167). -/
def Number.parse (i : List Char) : PR Number :=
  PR.bind (nomI64 i) fun int i =>
  match popt (Number.parseFloatParts i) i with
  | .ok none i => .ok (.int int) i
  | .ok (some (zeroes, last)) i => .ok (.float int zeroes last) i
  | .fail => .fail
  | .panic => .panic

/-- `impl PartialEq for Number` (src/lib.rs 178–194), clause by clause. -/
def Number.beq : Number → Number → Bool
  | .int l, .int r => l == r
  | .int l, .float r _ none => l == r
  | .int _, .float _ _ (some _) => false
  | .float l _ none, .int r => l == r
  | .float _ _ (some _), .int _ => false
  | .float l _ none, .float r _ none => l == r
  | .float _ _ (some _), .float _ _ none => false
  | .float _ _ none, .float _ _ (some _) => false
  | .float l a (some x), .float r b (some y) => l == r && a == b && x == y

/-- `Value` from src/lib.rs: a `Number` plus an optional currency marker. -/
structure Value where
  value : Number
  currency : Option (List Char)
deriving DecidableEq

/-- `Value::parse_currency` (src/lib.rs 133–138). -/
def Value.parseCurrency (i : List Char) : PR (List Char) :=
  PR.bind (space1 i) fun _ i =>
  PR.bind (alpha1 i) fun currency i =>
  .ok currency i

/-- `Value::parse` (src/lib.rs 125–131). -/
def Value.parse (i : List Char) : PR Value :=
  PR.bind (Number.parse i) fun value i =>
  PR.bind (popt (Value.parseCurrency i) i) fun currency i =>
  .ok ⟨value, currency⟩ i

/-- `Exchange` from src/lib.rs: a per-unit (`@`) or total (`@@`) rate. -/
inductive Exchange where
  | perUnit : Value → Exchange
  | total : Value → Exchange
deriving DecidableEq

/-- `Exchange::parse` (src/lib.rs 209–211).  The body of the Rust function
is `todo!()`, which panics unconditionally on every input. -/
def Exchange.parse (_i : List Char) : PR Exchange := .panic

/-- `ValueAndExchange` from src/lib.rs. -/
structure ValueAndExchange where
  symbol : Option Char
  value : Value
  exchange : Option Exchange
deriving DecidableEq

/-- `ValueAndExchange::parse_exchange` (src/lib.rs 109–112). -/
def ValueAndExchange.parseExchange (i : List Char) : PR Exchange :=
  PR.bind (space1 i) fun _ i =>
  Exchange.parse i

/-- `ValueAndExchange::parse` (src/lib.rs 95–107). -/
def ValueAndExchange.parse (i : List Char) : PR ValueAndExchange :=
  PR.bind (popt (pchar '=' i) i) fun symbol i =>
  PR.bind (space1 i) fun _ i =>
  PR.bind (Value.parse i) fun value i =>
  PR.bind (popt (ValueAndExchange.parseExchange i) i) fun exchange i =>
  .ok ⟨symbol, value, exchange⟩ i

/-- Free function `parse_comment` (src/lib.rs 296–301): a `;` then
everything up to (excluding) the next newline. -/
def parseComment (i : List Char) : PR (List Char) :=
  PR.bind (pchar ';' i) fun _ i =>
  PR.bind (takeTill (fun c => c == '\n') i) fun comment i =>
  .ok comment i

/-- `Line` from src/lib.rs: one posting of an `Entry`. -/
structure Line where
  account : List Char
  value : Option ValueAndExchange
  comment : Option (List Char)
deriving DecidableEq

/-- `Line::parse_account` (src/lib.rs 66–70). -/
def Line.parseAccount (i : List Char) : PR (List Char) :=
  PR.bind (takeTill1 (fun c => c == ' ' || c == '\n') i) fun account i =>
  .ok account i

/-- `Line::parse_value` (src/lib.rs 72–76): one space, then at least one
more whitespace character, then the value. -/
def Line.parseValue (i : List Char) : PR ValueAndExchange :=
  PR.bind (pchar ' ' i) fun _ i =>
  PR.bind (space1 i) fun _ i =>
  ValueAndExchange.parse i

/-- `Line::parse_comment` (src/lib.rs 78–81). -/
def Line.parseComment (i : List Char) : PR (List Char) :=
  PR.bind (space1 i) fun _ i =>
  HledgerParser.parseComment i

/-- `Line::parse` (src/lib.rs 53–64). -/
def Line.parse (i : List Char) : PR Line :=
  PR.bind (Line.parseAccount i) fun account i =>
  PR.bind (popt (Line.parseValue i) i) fun value i =>
  PR.bind (popt (Line.parseComment i) i) fun comment i =>
  .ok ⟨account, value, comment⟩ i

/-- `time::Month`, the month enumeration used by the `time` crate. -/
inductive Month where
  | january | february | march | april | may | june
  | july | august | september | october | november | december
deriving DecidableEq

/-- Gregorian leap-year rule, as implemented by the `time` crate. -/
def isLeapYear (y : Int) : Prop := y % 4 = 0 ∧ (y % 100 ≠ 0 ∨ y % 400 = 0)

instance (y : Int) : Decidable (isLeapYear y) := by
  unfold isLeapYear; infer_instance

/-- `time::Month::length`: days in a month of a given year. -/
def Month.days (y : Int) : Month → Nat
  | .january => 31
  | .february => if isLeapYear y then 29 else 28
  | .march => 31
  | .april => 30
  | .may => 31
  | .june => 30
  | .july => 31
  | .august => 31
  | .september => 30
  | .october => 31
  | .november => 30
  | .december => 31

/-- `time::Date` restricted to the fields the parser uses. -/
structure Date where
  year : Int
  month : Month
  day : Nat
deriving DecidableEq

/-- `time::Date::from_calendar_date`: succeeds exactly when the year is in
the supported range `-9999..=9999` and the day exists in the given month of
the given year. -/
def Date.fromCalendarDate (y : Int) (m : Month) (d : Nat) : Option Date :=
  if -9999 ≤ y ∧ y ≤ 9999 ∧ 1 ≤ d ∧ d ≤ m.days y then some ⟨y, m, d⟩ else none

/-- `map_res(digit1, str::parse)` at type i32 (year and month fields):
digits whose value must fit in an i32.  The digits denote a non-negative
value, so it is carried as a `Nat`. -/
def mapResI32 (i : List Char) : PR Nat :=
  PR.bind (digit1 i) fun ds i =>
    if valOfDigits ds ≤ 2147483647 then .ok (valOfDigits ds) i else .fail

/-- `map_res(digit1, str::parse)` at type u8 (day field). -/
def mapResU8 (i : List Char) : PR Nat :=
  PR.bind (digit1 i) fun ds i =>
    if valOfDigits ds ≤ 255 then .ok (valOfDigits ds) i else .fail

/-- Free function `parse_month` (src/lib.rs 276–294): digits parsed as an
integer, then matched against `1..=12`. -/
def parseMonth (i : List Char) : PR Month :=
  PR.bind (mapResI32 i) fun m i =>
    if m = 1 then .ok .january i
    else if m = 2 then .ok .february i
    else if m = 3 then .ok .march i
    else if m = 4 then .ok .april i
    else if m = 5 then .ok .may i
    else if m = 6 then .ok .june i
    else if m = 7 then .ok .july i
    else if m = 8 then .ok .august i
    else if m = 9 then .ok .september i
    else if m = 10 then .ok .october i
    else if m = 11 then .ok .november i
    else if m = 12 then .ok .december i
    else .fail

/-- Free function `parse_date` (src/lib.rs 263–274). -/
def parseDate (i : List Char) : PR Date :=
  PR.bind (mapResI32 i) fun year i =>
  PR.bind (pchar '-' i) fun _ i =>
  PR.bind (parseMonth i) fun month i =>
  PR.bind (pchar '-' i) fun _ i =>
  PR.bind (mapResU8 i) fun day i =>
  match Date.fromCalendarDate (year : Int) month day with
  | some date => .ok date i
  | none => .fail

/-- `Price` from src/lib.rs. -/
structure Price where
  date : Date
  asset : List Char
  value : Value
  comment : Option (List Char)
deriving DecidableEq

/-- `Price::parse_comment` (src/lib.rs 257–260). -/
def Price.parseComment (i : List Char) : PR (List Char) :=
  PR.bind (space1 i) fun _ i =>
  HledgerParser.parseComment i

/-- `Price::parse` (src/lib.rs 243–255). -/
def Price.parse (i : List Char) : PR Price :=
  PR.bind (pchar 'P' i) fun _ i =>
  PR.bind (space1 i) fun _ i =>
  PR.bind (parseDate i) fun date i =>
  PR.bind (space1 i) fun _ i =>
  PR.bind (alpha1 i) fun asset i =>
  PR.bind (space1 i) fun _ i =>
  PR.bind (Value.parse i) fun value i =>
  PR.bind (popt (Price.parseComment i) i) fun comment i =>
  .ok ⟨date, asset, value, comment⟩ i

/-- The character of a decimal digit. -/
def digitChar (n : Nat) : Char := Char.ofNat (48 + n)

/-- Canonical decimal digit string of a natural number, with explicit fuel
so that it computes by kernel reduction. -/
def natDigitsAux : Nat → Nat → List Char
  | 0, _ => []
  | f + 1, n =>
    if n < 10 then [digitChar n]
    else natDigitsAux f (n / 10) ++ [digitChar (n % 10)]

/-- Canonical decimal digit string of a natural number: no leading zeroes,
and `"0"` for zero. -/
def natDigits (n : Nat) : List Char := natDigitsAux (n + 1) n

/-- Canonical decimal form of an i64 value: a `-` sign for negative values,
then the digits of the magnitude. -/
def intDigits (n : Int) : List Char :=
  if n < 0 then '-' :: natDigits (-n).toNat else natDigits n.toNat

/-- The canonical printer named by the spec's round-trip property:
`Int n` prints `n`; `Float n k t` prints `n`, a dot, `k` zeroes, then the
digits of `t` when present. -/
def printNumber : Number → List Char
  | .int n => intDigits n
  | .float n k t =>
    intDigits n ++ '.' ::
      (List.replicate k '0' ++ (match t with | some d => natDigits d | none => []))

/-- Fractional part of the claim's input shape `[-]?digits(.0*digits?)?`:
nothing, or a dot, a run of `k` zeroes, and optionally the digits of `t`. -/
def fracChars : Option (Nat × Option Nat) → List Char
  | none => []
  | some (k, t) =>
    '.' :: (List.replicate k '0' ++ (match t with | some d => natDigits d | none => []))

/-- `LineOrComment` from src/lib.rs. -/
inductive LineOrComment where
  | line : Line → LineOrComment
  | comment : List Char → LineOrComment
deriving DecidableEq

/-- `Entry` from src/lib.rs (the struct only; the repository implements no
parser for it). -/
structure Entry where
  date : Date
  description : List Char
  comment : Option (List Char)
  lines : List LineOrComment
deriving DecidableEq

/-- Result of the entry parser, which works over a journal already split
into lines (`List (List Char)`), returning the lines it did not consume. -/
inductive ERes (α : Type) where
  | ok : α → List (List Char) → ERes α
  | fail : ERes α
  | panic : ERes α
deriving DecidableEq

/-- Number of proper postings among the lines of an entry, not counting
interleaved comment lines. -/
def countPostings (locs : List LineOrComment) : Nat :=
  locs.countP fun loc => match loc with | .line _ => true | .comment _ => false

/-- Modelled from the spec: the repository declares `Entry` (src/lib.rs
23–32) but implements no parser for it.  §4.9: the header line is
`Date ws Description [ws Comment]`; the description runs from the first
non-whitespace after the date up to the `;` introducing the header comment
or to the end of the line. -/
def parseHeader (i : List Char) : PR (Date × List Char × Option (List Char)) :=
  PR.bind (parseDate i) fun date i =>
  PR.bind (space1 i) fun _ i =>
  match i.dropWhile (fun c => c != ';') with
  | [] => .ok (date, i.takeWhile (fun c => c != ';'), none) []
  | rest =>
    PR.bind (parseComment rest) fun c j =>
    .ok (date, i.takeWhile (fun c => c != ';'), some c) j

/-- Modelled from the spec (§4.9): a content line of an `Entry` is
indented, i.e. begins with whitespace. -/
def isIndented (l : List Char) : Bool :=
  match l with
  | c :: _ => isSpaceC c
  | [] => false

/-- Modelled from the spec (§4.9): an indented content line is either a
comment line (semicolon-led) or a posting parsed by `Line::parse`; the
whole line must be consumed. -/
def parseContentLine (l : List Char) : PR LineOrComment :=
  match l.dropWhile isSpaceC with
  | ';' :: rest =>
    PR.bind (parseComment (';' :: rest)) fun c i =>
    if i.isEmpty then .ok (.comment c) [] else .fail
  | body =>
    PR.bind (Line.parse body) fun ln i =>
    if i.isEmpty then .ok (.line ln) [] else .fail

/-- Modelled from the spec (§4.9): consume content lines while they are
indented, stopping at the first non-indented line or the end of input. -/
def parseContentLines : List (List Char) → ERes (List LineOrComment)
  | [] => .ok [] []
  | l :: ls =>
    if isIndented l then
      match parseContentLine l with
      | .ok loc _ =>
        match parseContentLines ls with
        | .ok locs rest => .ok (loc :: locs) rest
        | .fail => .fail
        | .panic => .panic
      | .fail => .fail
      | .panic => .panic
    else .ok [] (l :: ls)

/-- Modelled from the spec: entry parsing (§4.9), absent from src/lib.rs.
A header line, then indented content lines until the first non-indented
line or end of input; an entry with fewer than two postings after
termination is a structural error (§7). -/
def Entry.parse (input : List (List Char)) : ERes Entry :=
  match input with
  | [] => .fail
  | h :: rest =>
    match parseHeader h with
    | .ok (date, description, comment) hrem =>
      if hrem.isEmpty then
        match parseContentLines rest with
        | .ok locs remLines =>
          if 2 ≤ countPostings locs then
            .ok ⟨date, description, comment, locs⟩ remLines
          else .fail
        | .fail => .fail
        | .panic => .panic
      else .fail
    | .fail => .fail
    | .panic => .panic

/-- Days of a month in the proleptic Gregorian calendar, stated over plain
naturals; follows the spec's words for "an existing calendar date". -/
def gregMonthLen (y m : Nat) : Nat :=
  if m = 2 then (if y % 4 = 0 ∧ (y % 100 ≠ 0 ∨ y % 400 = 0) then 29 else 28)
  else if m = 4 ∨ m = 6 ∨ m = 9 ∨ m = 11 then 30
  else 31

/-- Spec-side predicate for the claim's phrase "an existing Gregorian
calendar date": the month is in `1..=12` and the day exists in that month
of that year. -/
def isRealGregorianDate (y m d : Nat) : Prop :=
  1 ≤ m ∧ m ≤ 12 ∧ 1 ≤ d ∧ d ≤ gregMonthLen y m

instance (y m d : Nat) : Decidable (isRealGregorianDate y m d) := by
  unfold isRealGregorianDate; infer_instance

/-- Month constructor selected by `parse_month` for a value in `1..=12`
(defaulting to January outside that range). -/
def monthOfNat : Nat → Month
  | 1 => .january
  | 2 => .february
  | 3 => .march
  | 4 => .april
  | 5 => .may
  | 6 => .june
  | 7 => .july
  | 8 => .august
  | 9 => .september
  | 10 => .october
  | 11 => .november
  | 12 => .december
  | _ => .january

/-! ## Lemmas about the lexical primitives -/

theorem takeWhile_append_eq {p : Char → Bool} {ds rest : List Char}
    (h1 : ∀ c ∈ ds, p c = true)
    (h2 : ∀ c, rest.head? = some c → p c = false) :
    (ds ++ rest).takeWhile p = ds ∧ (ds ++ rest).dropWhile p = rest := by
  induction ds with
  | nil =>
    cases rest with
    | nil => simp
    | cons c t =>
      have hc : p c = false := h2 c rfl
      simp [List.takeWhile, List.dropWhile, hc]
  | cons d ds ih =>
    have hd : p d = true := h1 d (List.mem_cons_self d ds)
    have ih2 := ih (fun c hc => h1 c (List.mem_cons_of_mem d hc))
    simp [List.takeWhile, List.dropWhile, hd, ih2.1, ih2.2]

theorem digit1_append {ds rest : List Char} (hne : ds ≠ [])
    (hd : ∀ c ∈ ds, isDigitC c = true)
    (hr : ∀ c, rest.head? = some c → isDigitC c = false) :
    digit1 (ds ++ rest) = .ok ds rest := by
  have h := takeWhile_append_eq hd hr
  simp [digit1, h.1, h.2, List.isEmpty_iff, hne]

theorem natDigitsAux_congr :
    ∀ n f₁ f₂, n < f₁ → n < f₂ → natDigitsAux f₁ n = natDigitsAux f₂ n := by
  intro n
  induction n using Nat.strong_induction_on with
  | _ n ih =>
    intro f₁ f₂ h₁ h₂
    match f₁, f₂ with
    | g₁ + 1, g₂ + 1 =>
      by_cases hn : n < 10
      · simp [natDigitsAux, hn]
      · have hlt : n / 10 < n := Nat.div_lt_self (by omega) (by omega)
        have e := ih (n / 10) hlt g₁ g₂ (by omega) (by omega)
        simp [natDigitsAux, hn, e]

theorem natDigits_eq (n : Nat) :
    natDigits n =
      if n < 10 then [digitChar n]
      else natDigits (n / 10) ++ [digitChar (n % 10)] := by
  by_cases hn : n < 10
  · simp [natDigits, natDigitsAux, hn]
  · have hlt : n / 10 < n := Nat.div_lt_self (by omega) (by omega)
    have e := natDigitsAux_congr (n / 10) n (n / 10 + 1) (by omega) (by omega)
    simp [natDigits, natDigitsAux, hn, e]

theorem natDigits_ne_nil (n : Nat) : natDigits n ≠ [] := by
  rw [natDigits_eq]
  by_cases hn : n < 10 <;> simp [hn]

theorem digitChar_isDigit {m : Nat} (h : m < 10) : isDigitC (digitChar m) = true := by
  interval_cases m <;> decide

theorem digitVal_digitChar {m : Nat} (h : m < 10) : digitVal (digitChar m) = m := by
  interval_cases m <;> decide

theorem digitChar_ne_zero {m : Nat} (h0 : 0 < m) (h : m < 10) :
    (digitChar m == '0') = false := by
  interval_cases m <;> decide

theorem natDigits_digits (n : Nat) : ∀ c ∈ natDigits n, isDigitC c = true := by
  induction n using Nat.strong_induction_on with
  | _ n ih =>
    rw [natDigits_eq]
    by_cases hn : n < 10
    · simp [hn]
      exact digitChar_isDigit hn
    · have hlt : n / 10 < n := Nat.div_lt_self (by omega) (by omega)
      simp only [hn, if_false]
      intro c hc
      rcases List.mem_append.mp hc with h | h
      · exact ih (n / 10) hlt c h
      · simp at h
        subst h
        exact digitChar_isDigit (Nat.mod_lt _ (by omega))

theorem foldl_digits (n : Nat) :
    ∀ a, List.foldl (fun a c => 10 * a + digitVal c) a (natDigits n)
      = a * 10 ^ (natDigits n).length + n := by
  induction n using Nat.strong_induction_on with
  | _ n ih =>
    intro a
    rw [natDigits_eq]
    by_cases hn : n < 10
    · simp [hn, digitVal_digitChar hn]
      omega
    · have hlt : n / 10 < n := Nat.div_lt_self (by omega) (by omega)
      simp only [hn, if_false, List.foldl_append, List.length_append, List.foldl_cons,
        List.foldl_nil, List.length_cons, List.length_nil]
      rw [ih (n / 10) hlt a]
      rw [digitVal_digitChar (Nat.mod_lt _ (by omega))]
      have hdm : 10 * (n / 10) + n % 10 = n := Nat.div_add_mod n 10
      have hp : 10 ^ (0 + 1) = 10 := by norm_num
      rw [pow_add]
      ring_nf
      omega

theorem valOfDigits_natDigits (n : Nat) : valOfDigits (natDigits n) = n := by
  have h := foldl_digits n 0
  simpa [valOfDigits] using h

theorem natDigits_head_ne_zero {n : Nat} (h0 : 0 < n) :
    ∀ c, (natDigits n).head? = some c → (c == '0') = false := by
  induction n using Nat.strong_induction_on with
  | _ n ih =>
    intro c hc
    rw [natDigits_eq] at hc
    by_cases hn : n < 10
    · simp [hn] at hc
      subst hc
      exact digitChar_ne_zero h0 hn
    · have hlt : n / 10 < n := Nat.div_lt_self (by omega) (by omega)
      have hq : 0 < n / 10 := Nat.div_pos (by omega) (by omega)
      simp only [hn, if_false] at hc
      obtain ⟨d, ds, hds⟩ := List.exists_cons_of_ne_nil (natDigits_ne_nil (n / 10))
      rw [hds] at hc
      simp at hc
      subst hc
      have := ih (n / 10) hlt hq d
      rw [hds] at this
      exact this rfl

theorem digit_beq_false {c x : Char} (h : isDigitC c = true)
    (hx : isDigitC x = false) : (c == x) = false := by
  rw [beq_eq_false_iff_ne]
  intro he
  subst he
  rw [h] at hx
  cases hx

theorem nomI64_natDigits_neg {m : Nat} {rest : List Char} (hm : m ≤ 2 ^ 63)
    (hr : ∀ c, rest.head? = some c → isDigitC c = false) :
    nomI64 ('-' :: (natDigits m ++ rest)) = .ok (-(m : Int)) rest := by
  have h1 := digit1_append (natDigits_ne_nil m) (natDigits_digits m) hr
  simp [nomI64, h1, PR.bind, valOfDigits_natDigits]
  omega

theorem nomI64_natDigits_pos {m : Nat} {rest : List Char} (hm : m ≤ 2 ^ 63 - 1)
    (hr : ∀ c, rest.head? = some c → isDigitC c = false) :
    nomI64 (natDigits m ++ rest) = .ok (m : Int) rest := by
  have h1 := digit1_append (natDigits_ne_nil m) (natDigits_digits m) hr
  obtain ⟨c, cs, hcs⟩ := List.exists_cons_of_ne_nil (natDigits_ne_nil m)
  have hcd : isDigitC c = true :=
    natDigits_digits m c (by rw [hcs]; exact List.mem_cons_self c cs)
  have hval : valOfDigits (c :: cs) = m := by rw [← hcs]; exact valOfDigits_natDigits m
  have hminus : (c == '-') = false := digit_beq_false hcd (by decide)
  have hplus : (c == '+') = false := digit_beq_false hcd (by decide)
  rw [hcs] at h1 ⊢
  rw [List.cons_append] at h1 ⊢
  simp only [nomI64, hminus, hplus, Bool.or_self, Bool.false_eq_true, if_false]
  rw [h1]
  simp only [PR.bind, hminus, Bool.false_eq_true, if_false, hval]
  rw [if_pos (by omega)]

theorem many0CountZero_replicate {k : Nat} {rest : List Char}
    (hr : ∀ c, rest.head? = some c → (c == '0') = false) :
    many0CountZero (List.replicate k '0' ++ rest) = .ok k rest := by
  have h := @takeWhile_append_eq (fun c => c == '0') (List.replicate k '0') rest
    (fun c hc => by have hc0 := List.eq_of_mem_replicate hc; subst hc0; simp) hr
  simp [many0CountZero, h.1, h.2]

theorem digit1_all {ds : List Char} (hne : ds ≠ [])
    (hd : ∀ c ∈ ds, isDigitC c = true) : digit1 ds = .ok ds [] := by
  have h := @digit1_append ds [] hne hd (by intro c hc; cases hc)
  simpa using h

theorem nomU64_natDigits {t : Nat} (ht : t ≤ 2 ^ 64 - 1) :
    nomU64 (natDigits t) = .ok t [] := by
  have h1 := digit1_all (natDigits_ne_nil t) (natDigits_digits t)
  simp only [nomU64, h1, PR.bind, valOfDigits_natDigits]
  rw [if_pos (by omega)]

theorem intDigits_of_sign {neg : Bool} {m : Nat} (h0 : neg = true → 0 < m) :
    intDigits (if neg then -(m : Int) else (m : Int))
      = (if neg then ['-'] else []) ++ natDigits m := by
  cases neg
  · rw [if_neg Bool.false_ne_true, if_neg Bool.false_ne_true, List.nil_append]
    rw [intDigits, if_neg (by omega)]
    congr 1
  · have hm : 0 < m := h0 rfl
    rw [if_pos rfl, if_pos rfl]
    rw [intDigits, if_pos (by omega), List.singleton_append]
    congr 2
    omega

theorem fracChars_head_not_digit (frac : Option (Nat × Option Nat)) :
    ∀ c, (fracChars frac).head? = some c → isDigitC c = false := by
  intro c hc
  cases frac with
  | none => cases hc
  | some kt =>
    obtain ⟨k, t⟩ := kt
    simp [fracChars] at hc
    subst hc
    decide

theorem natDigits_zero : natDigits 0 = ['0'] := by decide

theorem parseFloatParts_zeros (k : Nat) :
    Number.parseFloatParts ('.' :: List.replicate k '0') = .ok (k, none) [] := by
  have hz := @many0CountZero_replicate k [] (fun c hc => by cases hc)
  rw [List.append_nil] at hz
  simp [Number.parseFloatParts, pchar, PR.bind, hz, popt, nomU64, digit1]

theorem parseFloatParts_tail {k t : Nat} (h0 : 0 < t) (ht : t ≤ 2 ^ 64 - 1) :
    Number.parseFloatParts ('.' :: (List.replicate k '0' ++ natDigits t))
      = .ok (k, some t) [] := by
  have hz := @many0CountZero_replicate k (natDigits t) (natDigits_head_ne_zero h0)
  have hu := nomU64_natDigits ht
  simp [Number.parseFloatParts, pchar, PR.bind, hz, hu, popt]

/-! ## Claim theorems (part 1) -/

/-- C1: the claim states that an account, a separator of at least two
whitespace characters, and a plain amount with no `=` and no exchange make
`Line::parse` succeed with `value = Some …`.  On the code this is false:
`Line::parse_value` consumes the entire separator, after which
`ValueAndExchange::parse` demands yet another `space1`, so the amount
branch misses and the amount text is left unconsumed with `value = None`. -/
theorem C1_line_parse_eval :
    Line.parse ("expenses:food    42.50 CAD".toList)
      = .ok ⟨"expenses:food".toList, none, none⟩ ("    42.50 CAD".toList) := rfl

/-- C2: the claim describes `Exchange::parse` accepting `"@@" ws A` as
`Total A` and `"@" ws A` as `PerUnit A`.  In the code the body of
`Exchange::parse` is `todo!()`, which panics on every input — contradicting
the doc comments on the `Exchange` variants; evaluated at `"@@ 1927.20 C"`. -/
theorem C2_exchange_parse_panics :
    Exchange.parse ("@@ 1927.20 C".toList) = .panic := rfl

/-- C6: the claim states that when whitespace follows a parsed value with
further text after it, `Line::parse` returns normally because the optional
exchange branch is a non-fatal miss.  On the code that branch reaches the
`todo!()` in `Exchange::parse` and the whole parse panics. -/
theorem C6_line_parse_panics :
    Line.parse ("assets:bank  = 1 CAD ; note".toList) = .panic := rfl

/-- C9: `Price::parse` on `P 2022-07-12 TSLA 699.21 U ; great buy?`
succeeds, consumes the whole input, and returns date 2022-07-12, asset
`TSLA`, value `Float(699, 0, Some 21)` with currency `U`, and comment
`" great buy?"` — the `;` excluded and the leading space preserved. -/
theorem C9_price_parse_eval :
    Price.parse ("P 2022-07-12 TSLA 699.21 U ; great buy?".toList)
      = .ok ⟨⟨2022, .july, 12⟩, "TSLA".toList,
          ⟨.float 699 0 (some 21), some ("U".toList)⟩,
          some (" great buy?".toList)⟩ [] := rfl

/-- C10: `Number` equality ignores the zero-run count when trailing digits
are absent, so the parses of `600.0` and `600.000` compare equal although
the canonical printer renders them differently. -/
theorem C10_float_none_eq :
    (∀ (n : Int) (a b : Nat), Number.beq (.float n a none) (.float n b none) = true)
      ∧ Number.parse ("600.0".toList) = .ok (.float 600 1 none) []
      ∧ Number.parse ("600.000".toList) = .ok (.float 600 3 none) []
      ∧ printNumber (.float 600 1 none) = "600.0".toList
      ∧ printNumber (.float 600 3 none) = "600.000".toList := by
  refine ⟨fun n a b => ?_, rfl, rfl, rfl, rfl⟩
  simp [Number.beq]

/-- C10 witness: the equality evaluated at `n = 600`, `a = 1`, `b = 3`. -/
theorem C10_float_none_eq_witness :
    Number.beq (.float 600 1 none) (.float 600 3 none) = true :=
  C10_float_none_eq.1 600 1 3

/-- C4: `Int n` equals `Float n k none` in both orders for every
zero-count `k`; and for every trailing-digit value `d ≠ 0`,
`Float n k (some d)` is not equal to `Int n` (in both orders; the code in
fact returns false for every `d`). -/
theorem C4_number_eq_law :
    (∀ (n : Int) (k : Nat),
        Number.beq (.int n) (.float n k none) = true
          ∧ Number.beq (.float n k none) (.int n) = true)
      ∧ (∀ (n : Int) (k : Nat) (d : Nat), d ≠ 0 →
          Number.beq (.float n k (some d)) (.int n) = false
            ∧ Number.beq (.int n) (.float n k (some d)) = false) := by
  constructor
  · intro n k
    constructor <;> simp [Number.beq]
  · intro n k d _
    constructor <;> simp [Number.beq]

/-- C4 witness: the law evaluated at `n = 5`, `k = 3` and at
`n = 5`, `k = 2`, `d = 7`. -/
theorem C4_number_eq_law_witness :
    (Number.beq (.int 5) (.float 5 3 none) = true
        ∧ Number.beq (.float 5 3 none) (.int 5) = true)
      ∧ (Number.beq (.float 5 2 (some 7)) (.int 5) = false
        ∧ Number.beq (.int 5) (.float 5 2 (some 7)) = false) :=
  ⟨C4_number_eq_law.1 5 3, C4_number_eq_law.2 5 2 7 (by decide)⟩

/-- C8: whenever `Line::parse` succeeds, the returned account is non-empty
and contains no space and no newline; and `Line::parse` fails on any input
whose first character is a space or a newline. -/
theorem C8_account_invariants :
    (∀ (i : List Char) (l : Line) (rest : List Char),
        Line.parse i = .ok l rest →
          l.account ≠ [] ∧ ∀ c ∈ l.account, c ≠ ' ' ∧ c ≠ '\n')
      ∧ (∀ (c : Char) (i : List Char), (c = ' ' ∨ c = '\n') →
          Line.parse (c :: i) = .fail) := by
  constructor
  · intro i l rest h
    unfold Line.parse Line.parseAccount takeTill1 at h
    split at h
    · simp [PR.bind] at h
    next hne =>
      simp only [PR.bind] at h
      cases hv : popt (Line.parseValue (i.dropWhile fun c => !(c == ' ' || c == '\n')))
          (i.dropWhile fun c => !(c == ' ' || c == '\n')) with
      | ok v j =>
        rw [hv] at h
        simp only [PR.bind] at h
        cases hc : popt (Line.parseComment j) j with
        | ok co j2 =>
          rw [hc] at h
          simp only [PR.bind] at h
          cases h
          constructor
          · simpa [List.isEmpty_iff] using hne
          · intro c hcmem
            have := List.mem_takeWhile_imp hcmem
            simp at this
            exact this
        | fail => rw [hc] at h; cases h
        | panic => rw [hc] at h; cases h
      | fail => rw [hv] at h; cases h
      | panic => rw [hv] at h; cases h
  · intro c i hc
    rcases hc with hc | hc <;> subst hc <;>
      simp [Line.parse, Line.parseAccount, takeTill1, PR.bind, List.takeWhile]

/-- C8 witness: the invariants evaluated on the successful parse of `a:b`
and on the failing input `" x"`. -/
theorem C8_account_invariants_witness :
    ("a:b".toList ≠ [] ∧ ∀ c ∈ "a:b".toList, c ≠ ' ' ∧ c ≠ '\n')
      ∧ Line.parse (' ' :: "x".toList) = .fail :=
  ⟨C8_account_invariants.1 ("a:b".toList) ⟨"a:b".toList, none, none⟩ [] rfl,
   C8_account_invariants.2 ' ' ("x".toList) (Or.inl rfl)⟩

/-- C3 counterexample: the input `-0` has the claimed shape
`[-]?digits(.0*digits?)?` and `Number::parse` consumes all of it returning
`Int 0`, but the canonical printer renders `Int 0` as `0`, not `-0`, so
the round trip fails. -/
theorem C3_counterexample :
    Number.parse ("-0".toList) = .ok (.int 0) []
      ∧ printNumber (.int 0) = "0".toList
      ∧ (printNumber (.int 0) == "-0".toList) = false := ⟨rfl, rfl, rfl⟩

/-- C5 counterexample: `10000-01-01` denotes an existing Gregorian
calendar date (January 1 of year 10000), yet `parse_date` fails on it:
`time::Date::from_calendar_date` supports years only up to 9999. -/
theorem C5_counterexample :
    isRealGregorianDate 10000 1 1 ∧ parseDate ("10000-01-01".toList) = .fail :=
  ⟨by decide, rfl⟩

/-- C7: every successfully parsed `Entry` has at least two postings, with
interleaved comment lines not counted; fewer than two postings is a
structural error.  The entry grammar is modelled from the spec (§4.9);
src/lib.rs only declares `Entry` and implements no parser for it. -/
theorem C7_entry_min_postings :
    ∀ (input : List (List Char)) (e : Entry) (rest : List (List Char)),
      Entry.parse input = .ok e rest → 2 ≤ countPostings e.lines := by
  intro input e rest h
  unfold Entry.parse at h
  repeat' split at h
  all_goals cases h
  next hcount _ => simpa using hcount

/-- C7 witness: a two-posting entry parses successfully and satisfies the
bound. -/
theorem C7_entry_min_postings_witness :
    Entry.parse ["2022-08-01 Salary".toList, "  a:b".toList, "  c:d".toList]
        = .ok ⟨⟨2022, .august, 1⟩, "Salary".toList, none,
            [.line ⟨"a:b".toList, none, none⟩, .line ⟨"c:d".toList, none, none⟩]⟩ []
      ∧ 2 ≤ countPostings [LineOrComment.line ⟨"a:b".toList, none, none⟩,
            .line ⟨"c:d".toList, none, none⟩] :=
  ⟨rfl,
   C7_entry_min_postings
     ["2022-08-01 Salary".toList, "  a:b".toList, "  c:d".toList]
     ⟨⟨2022, .august, 1⟩, "Salary".toList, none,
       [.line ⟨"a:b".toList, none, none⟩, .line ⟨"c:d".toList, none, none⟩]⟩
     [] rfl⟩

theorem mapResI32_append {ds rest : List Char} (hne : ds ≠ [])
    (hd : ∀ c ∈ ds, isDigitC c = true)
    (hr : ∀ c, rest.head? = some c → isDigitC c = false) :
    mapResI32 (ds ++ rest)
      = if valOfDigits ds ≤ 2147483647
        then .ok (valOfDigits ds) rest else .fail := by
  simp only [mapResI32]
  rw [digit1_append hne hd hr]
  simp only [PR.bind]

theorem mapResU8_all {ds : List Char} (hne : ds ≠ [])
    (hd : ∀ c ∈ ds, isDigitC c = true) :
    mapResU8 ds
      = if valOfDigits ds ≤ 255 then .ok (valOfDigits ds) [] else .fail := by
  simp only [mapResU8]
  rw [digit1_all hne hd]
  simp only [PR.bind]

theorem parseMonth_spec {ms rest : List Char} (hne : ms ≠ [])
    (hd : ∀ c ∈ ms, isDigitC c = true)
    (hr : ∀ c, rest.head? = some c → isDigitC c = false) :
    parseMonth (ms ++ rest)
      = if 1 ≤ valOfDigits ms ∧ valOfDigits ms ≤ 12
        then .ok (monthOfNat (valOfDigits ms)) rest else .fail := by
  simp only [parseMonth]
  rw [mapResI32_append hne hd hr]
  by_cases h32 : valOfDigits ms ≤ 2147483647
  · rw [if_pos h32]
    simp only [PR.bind]
    by_cases hb : 1 ≤ valOfDigits ms ∧ valOfDigits ms ≤ 12
    · rw [if_pos hb]
      obtain ⟨hb1, hb2⟩ := hb
      generalize valOfDigits ms = n at hb1 hb2 ⊢
      interval_cases n <;> norm_num [monthOfNat]
    · rw [if_neg hb]
      rcases (by omega : valOfDigits ms = 0 ∨ 13 ≤ valOfDigits ms) with h0 | h0
      · rw [h0]
        norm_num
      · rw [if_neg (by omega : ¬ valOfDigits ms = 1),
          if_neg (by omega : ¬ valOfDigits ms = 2),
          if_neg (by omega : ¬ valOfDigits ms = 3),
          if_neg (by omega : ¬ valOfDigits ms = 4),
          if_neg (by omega : ¬ valOfDigits ms = 5),
          if_neg (by omega : ¬ valOfDigits ms = 6),
          if_neg (by omega : ¬ valOfDigits ms = 7),
          if_neg (by omega : ¬ valOfDigits ms = 8),
          if_neg (by omega : ¬ valOfDigits ms = 9),
          if_neg (by omega : ¬ valOfDigits ms = 10),
          if_neg (by omega : ¬ valOfDigits ms = 11),
          if_neg (by omega : ¬ valOfDigits ms = 12)]
  · rw [if_neg h32]
    simp only [PR.bind]
    rw [if_neg (by omega)]

theorem monthOfNat_days {y m : Nat} (h1 : 1 ≤ m) (h2 : m ≤ 12) :
    Month.days (y : Int) (monthOfNat m) = gregMonthLen y m := by
  have hleap : isLeapYear (y : Int) ↔ (y % 4 = 0 ∧ (y % 100 ≠ 0 ∨ y % 400 = 0)) := by
    unfold isLeapYear
    omega
  interval_cases m <;> simp [monthOfNat, Month.days, gregMonthLen, hleap]

theorem gregMonthLen_le (y m : Nat) : gregMonthLen y m ≤ 31 := by
  unfold gregMonthLen
  split_ifs <;> omega

/-- C3 (amended): for every input string of the shape
`[-]?digits(.0*digits?)?` whose integer part is the canonical decimal form
of a value in the i64 range (hence no leading zeroes and no `-0`) and
whose digit run after the zero-run fits in a u64, `Number::parse`
succeeds, consumes all of the input, and the canonical printer reproduces
the input exactly. -/
theorem C3_roundtrip_amended (neg : Bool) (m : Nat) (frac : Option (Nat × Option Nat))
    (hneg : neg = true → 0 < m ∧ m ≤ 2 ^ 63)
    (hpos : neg = false → m ≤ 2 ^ 63 - 1)
    (ht : ∀ k t, frac = some (k, some t) → t ≤ 2 ^ 64 - 1) :
    ∃ num,
      Number.parse ((if neg then ['-'] else []) ++ (natDigits m ++ fracChars frac))
          = .ok num []
        ∧ printNumber num
            = (if neg then ['-'] else []) ++ (natDigits m ++ fracChars frac) := by
  have hsign : nomI64 ((if neg then ['-'] else []) ++ (natDigits m ++ fracChars frac))
      = .ok (if neg then -(m : Int) else (m : Int)) (fracChars frac) := by
    cases neg
    · rw [if_neg Bool.false_ne_true, if_neg Bool.false_ne_true, List.nil_append]
      exact nomI64_natDigits_pos (hpos rfl) (fracChars_head_not_digit frac)
    · rw [if_pos rfl, if_pos rfl, List.singleton_append]
      exact nomI64_natDigits_neg (hneg rfl).2 (fracChars_head_not_digit frac)
  have hprint : intDigits (if neg then -(m : Int) else (m : Int))
      = (if neg then ['-'] else []) ++ natDigits m :=
    intDigits_of_sign (fun h => (hneg h).1)
  cases frac with
  | none =>
    refine ⟨.int (if neg then -(m : Int) else (m : Int)), ?_, ?_⟩
    · simp only [Number.parse]
      rw [hsign]
      simp [PR.bind, popt, Number.parseFloatParts, pchar, fracChars]
    · simp [printNumber, hprint, fracChars]
  | some kt =>
    obtain ⟨k, t⟩ := kt
    cases t with
    | none =>
      have hfc : fracChars (some (k, none)) = '.' :: List.replicate k '0' := by
        simp [fracChars]
      refine ⟨.float (if neg then -(m : Int) else (m : Int)) k none, ?_, ?_⟩
      · simp only [Number.parse]
        rw [hsign]
        simp only [PR.bind, hfc, parseFloatParts_zeros, popt]
      · simp [printNumber, hprint, hfc, List.append_assoc]
    | some d =>
      cases d with
      | zero =>
        have hfc : fracChars (some (k, some 0)) = '.' :: List.replicate (k + 1) '0' := by
          simp [fracChars, natDigits_zero, List.replicate_succ']
        refine ⟨.float (if neg then -(m : Int) else (m : Int)) (k + 1) none, ?_, ?_⟩
        · simp only [Number.parse]
          rw [hsign]
          simp only [PR.bind, hfc, parseFloatParts_zeros, popt]
        · simp [printNumber, hprint, hfc, List.append_assoc, List.replicate_succ']
      | succ e =>
        have htb : e + 1 ≤ 2 ^ 64 - 1 := ht k (e + 1) rfl
        have hfc : fracChars (some (k, some (e + 1)))
            = '.' :: (List.replicate k '0' ++ natDigits (e + 1)) := by
          simp [fracChars]
        refine ⟨.float (if neg then -(m : Int) else (m : Int)) k (some (e + 1)), ?_, ?_⟩
        · simp only [Number.parse]
          rw [hsign]
          simp only [PR.bind, hfc, parseFloatParts_tail (Nat.succ_pos e) htb, popt]
        · simp [printNumber, hprint, hfc, List.append_assoc]

/-- C3 witness: the amended round trip evaluated at the input
`600.000123` (no sign, integer part 600, three zeroes, tail 123). -/
theorem C3_roundtrip_witness :
    ∃ num,
      Number.parse ((if false then ['-'] else []) ++ (natDigits 600
            ++ fracChars (some (3, some 123))))
          = .ok num []
        ∧ printNumber num
            = (if false then ['-'] else []) ++ (natDigits 600
                ++ fracChars (some (3, some 123))) :=
  C3_roundtrip_amended false 600 (some (3, some 123))
    (by intro h; cases h)
    (by intro _; norm_num)
    (by intro k t h; simp at h; omega)

/-- C5 (amended): on a string of shape digits-digits-digits, `parse_date`
succeeds if and only if the three denoted numbers form an existing
Gregorian calendar date whose year is at most 9999 (the range supported by
`time::Date::from_calendar_date`); in particular a month outside `1..=12`
fails and an impossible day such as February 30 fails. -/
theorem C5_date_validity_amended (ys ms ds : List Char)
    (hy : ys ≠ []) (hyd : ∀ c ∈ ys, isDigitC c = true)
    (hm : ms ≠ []) (hmd : ∀ c ∈ ms, isDigitC c = true)
    (hd : ds ≠ []) (hdd : ∀ c ∈ ds, isDigitC c = true) :
    (∃ dt, parseDate (ys ++ '-' :: (ms ++ '-' :: ds)) = .ok dt [])
      ↔ isRealGregorianDate (valOfDigits ys) (valOfDigits ms) (valOfDigits ds)
          ∧ valOfDigits ys ≤ 9999 := by
  have hy1 := @mapResI32_append ys ('-' :: (ms ++ '-' :: ds)) hy hyd
    (fun c hc => by simp at hc; subst hc; decide)
  have hm1 := @parseMonth_spec ms ('-' :: ds) hm hmd
    (fun c hc => by simp at hc; subst hc; decide)
  have hd1 := mapResU8_all hd hdd
  simp only [parseDate]
  rw [hy1]
  by_cases hy32 : valOfDigits ys ≤ 2147483647
  · rw [if_pos hy32]
    simp only [PR.bind, pchar, eq_self_iff_true, if_true]
    rw [hm1]
    by_cases hmb : 1 ≤ valOfDigits ms ∧ valOfDigits ms ≤ 12
    · rw [if_pos hmb]
      simp only [PR.bind, pchar, eq_self_iff_true, if_true]
      rw [hd1]
      by_cases hdb : valOfDigits ds ≤ 255
      · rw [if_pos hdb]
        simp only [PR.bind, Date.fromCalendarDate]
        rw [monthOfNat_days hmb.1 hmb.2]
        by_cases hval : -9999 ≤ (valOfDigits ys : Int)
            ∧ (valOfDigits ys : Int) ≤ 9999 ∧ 1 ≤ valOfDigits ds
            ∧ valOfDigits ds ≤ gregMonthLen (valOfDigits ys) (valOfDigits ms)
        · rw [if_pos hval]
          constructor
          · intro _
            exact ⟨⟨hmb.1, hmb.2, hval.2.2.1, hval.2.2.2⟩, by
              have := hval.2.1
              omega⟩
          · intro _
            exact ⟨_, rfl⟩
        · rw [if_neg hval]
          constructor
          · rintro ⟨dt, hdt⟩
            cases hdt
          · rintro ⟨hreal, hle⟩
            refine absurd ⟨by omega, by omega, ?_, ?_⟩ hval
            · exact hreal.2.2.1
            · exact hreal.2.2.2
      · rw [if_neg hdb]
        simp only [PR.bind]
        constructor
        · rintro ⟨dt, hdt⟩
          cases hdt
        · rintro ⟨hreal, _⟩
          have h31 := gregMonthLen_le (valOfDigits ys) (valOfDigits ms)
          have h1 := hreal.2.2.2
          omega
    · rw [if_neg hmb]
      simp only [PR.bind]
      constructor
      · rintro ⟨dt, hdt⟩
        cases hdt
      · rintro ⟨hreal, _⟩
        exact absurd ⟨hreal.1, hreal.2.1⟩ hmb
  · rw [if_neg hy32]
    simp only [PR.bind]
    constructor
    · rintro ⟨dt, hdt⟩
      cases hdt
    · rintro ⟨_, hle⟩
      omega

/-- C5 witness: `2022-07-16` denotes a real in-range Gregorian date, and
`parse_date` accepts it. -/
theorem C5_date_validity_witness :
    ∃ dt, parseDate ("2022".toList ++ '-' :: ("07".toList ++ '-' :: "16".toList))
      = .ok dt [] :=
  (C5_date_validity_amended ("2022".toList) ("07".toList) ("16".toList)
      (by decide) (by decide) (by decide) (by decide) (by decide) (by decide)).mpr
    (by constructor
        · show isRealGregorianDate 2022 7 16
          decide
        · show (2022 : Nat) ≤ 9999
          decide)

end HledgerParser
